import Mathlib

/-!
Verification of the learnable-positional-encoding notebook.

Tensors are shallowly embedded as nested lists of rationals; token ids are
integers.  PyTorch slicing `[:L]` is `List.take L`, and elementwise `+`
follows PyTorch broadcasting on each dimension (sizes must agree or one of
them must be 1).  Fallible tensor operations return `Option`.
-/

namespace LPE

abbrev Vec := List ℚ
abbrev Mat := List Vec
abbrev T3 := List Mat

/-- Entry read of a matrix, with 0 as the out-of-bounds default. -/
def mget (m : Mat) (i j : Nat) : ℚ := (m.getD i []).getD j 0

/-- Entry read of a 3-dimensional tensor. -/
def t3get (t : T3) (i j k : Nat) : ℚ := ((t.getD i []).getD j []).getD k 0

/-- Size of dimension 1 (the `x.size(1)` of the source), read off the first slice. -/
def dim1 (t : T3) : Nat := (t.getD 0 []).length

/-- Size of dimension 2, read off the first row of the first slice. -/
def dim2 (t : T3) : Nat := ((t.getD 0 []).getD 0 []).length

/-- Build a tensor of shape `(a, b, c)` from an entry function. -/
def t3ofFn (a b c : Nat) (f : Nat → Nat → Nat → ℚ) : T3 :=
  (List.range a).map fun i =>
    (List.range b).map fun j =>
      (List.range c).map fun k => f i j k

/-- `torch.zeros(a, b, c)`. -/
def zeros3 (a b c : Nat) : T3 :=
  List.replicate a (List.replicate b (List.replicate c (0 : ℚ)))

/-- `m` is a rectangular matrix with `r` rows and `c` columns. -/
def isMat (r c : Nat) (m : Mat) : Prop :=
  m.length = r ∧ ∀ row ∈ m, row.length = c

/-- `t` is a rectangular tensor of shape `(a, b, c)`. -/
def isT3 (a b c : Nat) (t : T3) : Prop :=
  t.length = a ∧ ∀ m ∈ t, isMat b c m

instance (r c : Nat) (m : Mat) : Decidable (isMat r c m) := by
  unfold isMat; infer_instance

instance (a b c : Nat) (t : T3) : Decidable (isT3 a b c t) := by
  unfold isT3; infer_instance

/-- PyTorch broadcast of one pair of dimension sizes: they must be equal or
one of them must be 1, in which case the result is the other size. -/
def bdim (a b : Nat) : Option Nat :=
  if a = b then some a else if a = 1 then some b else if b = 1 then some a else none

/-- Index into a source dimension of size `d` when the broadcast output index
is `i`: a size-1 dimension is read at 0. -/
def bidx (d i : Nat) : Nat := if d = 1 then 0 else i

/-- Broadcast elementwise addition of two 3-dimensional tensors, following
PyTorch semantics; `none` when the shapes are incompatible. -/
def add3 (x y : T3) : Option T3 :=
  match bdim x.length y.length, bdim (dim1 x) (dim1 y), bdim (dim2 x) (dim2 y) with
  | some a, some b, some c =>
      some (t3ofFn a b c fun i j k =>
        t3get x (bidx x.length i) (bidx (dim1 x) j) (bidx (dim2 x) k) +
        t3get y (bidx y.length i) (bidx (dim1 y) j) (bidx (dim2 y) k))
  | _, _, _ => none

/-- The module `LearnablePositionalEncoding`: its single parameter tensor
`self.pos_encoding`, of shape `(1, max_len, d_model)` after construction. -/
structure LearnablePositionalEncoding where
  pos_encoding : T3

/-- `__init__(max_len, d_model)`: `self.pos_encoding = nn.Parameter(torch.zeros(1, max_len, d_model))`. -/
def LearnablePositionalEncoding.init (max_len d_model : Nat) : LearnablePositionalEncoding :=
  ⟨zeros3 1 max_len d_model⟩

/-- The slice `self.pos_encoding[:, :L, :]`. -/
def posSlice (pe : LearnablePositionalEncoding) (L : Nat) : T3 :=
  pe.pos_encoding.map fun m => m.take L

/-- `forward(x)`: `return x + self.pos_encoding[:, :x.size(1), :]`. -/
def LearnablePositionalEncoding.forward (pe : LearnablePositionalEncoding) (x : T3) :
    Option T3 :=
  add3 x (posSlice pe (dim1 x))

/-- State-passing form of `forward`: the body performs no assignment, so the
module state and the argument come back unchanged next to the result. -/
def LearnablePositionalEncoding.forwardS (pe : LearnablePositionalEncoding) (x : T3) :
    Option T3 × LearnablePositionalEncoding × T3 :=
  (pe.forward x, pe, x)

/-- `DummyDataset`: its stored fields.  `self.data` is the matrix produced by
`torch.randint(0, vocab_size, (num_samples, seq_length))`; the generator is
random, so the matrix is a field and `DummyDataset.valid` states exactly the
shape and range `randint` guarantees for it. -/
structure DummyDataset where
  num_samples : Nat
  seq_length : Nat
  vocab_size : Nat
  data : List (List Int)

/-- What `torch.randint(0, vocab_size, (num_samples, seq_length))` guarantees
about `self.data`. -/
def DummyDataset.valid (ds : DummyDataset) : Prop :=
  ds.data.length = ds.num_samples ∧
  ∀ row ∈ ds.data, row.length = ds.seq_length ∧
    ∀ tok ∈ row, 0 ≤ tok ∧ tok < (ds.vocab_size : Int)

instance (ds : DummyDataset) : Decidable ds.valid := by
  unfold DummyDataset.valid; infer_instance

/-- `__len__`. -/
def DummyDataset.len (ds : DummyDataset) : Nat := ds.num_samples

/-- `__getitem__(idx)`: `return self.data[idx, :-1], self.data[idx, 1:]`. -/
def DummyDataset.getitem (ds : DummyDataset) (idx : Nat) : List Int × List Int :=
  ((ds.data.getD idx []).dropLast, (ds.data.getD idx []).drop 1)

/-- Dot product of two vectors. -/
def dot (a b : Vec) : ℚ := (List.zipWith (fun p q => p * q) a b).sum

/-- `nn.Linear` applied to one vector: `W v + b` with weight rows `W` and bias `b`. -/
def linearV (W : Mat) (bias : Vec) (v : Vec) : Vec :=
  List.zipWith (fun wrow bi => dot wrow v + bi) W bias

/-- `self.fc_out` applied pointwise over the last dimension of a 3-d tensor. -/
def linear3 (W : Mat) (bias : Vec) (t : T3) : T3 :=
  t.map fun m => m.map fun v => linearV W bias v

/-- `t.permute(1, 0, 2)`: swap the first two dimensions. -/
def permute102 (t : T3) : T3 :=
  (List.range (dim1 t)).map fun j => t.map fun m => m.getD j []

/-- Map a fallible function over a list, failing whenever one element
fails. -/
def optMap {α γ : Type} (f : α → Option γ) : List α → Option (List γ)
  | [] => some []
  | a :: t =>
    match f a, optMap f t with
    | some v, some vs => some (v :: vs)
    | _, _ => none

/-- `self.embedding(src)` for `nn.Embedding` with weight matrix `w`
(`w.length` rows, one per token of the vocabulary): looks every id up in `w`
and raises a bounds error — `none` — on any id outside `[0, w.length)`. -/
def embedLookup (w : Mat) (src : List (List Int)) : Option T3 :=
  optMap (fun row => optMap (fun tok =>
    if 0 ≤ tok ∧ tok < (w.length : Int) then some (w.getD tok.toNat []) else none) row) src

/-- `SimpleTransformerModel`: token-embedding weight, the positional-encoding
module, the library `nn.TransformerEncoder` stack (an external collaborator,
kept abstract as a function that also receives the ambient dropout randomness
as a `List Bool` mask), and the `fc_out` projection weight and bias. -/
structure SimpleTransformerModel where
  embedding : Mat
  pos_encoding : LearnablePositionalEncoding
  transformer_encoder : List Bool → T3 → T3
  fc_w : Mat
  fc_b : Vec

/-- The shapes `__init__(vocab_size, d_model, max_len, num_heads, num_layers,
dropout)` gives the stored weights: `nn.Embedding(vocab_size, d_model)`,
`LearnablePositionalEncoding(max_len, d_model)`, and
`nn.Linear(d_model, vocab_size)`. -/
def SimpleTransformerModel.wf (m : SimpleTransformerModel)
    (vocab d max_len : Nat) : Prop :=
  isMat vocab d m.embedding ∧ isT3 1 max_len d m.pos_encoding.pos_encoding ∧
  isMat vocab d m.fc_w ∧ m.fc_b.length = vocab

instance (m : SimpleTransformerModel) (vocab d max_len : Nat) :
    Decidable (m.wf vocab d max_len) := by
  unfold SimpleTransformerModel.wf; infer_instance

/-- `SimpleTransformerModel.forward(src)`: embed, add positional encoding,
permute to `(L, B, d)`, run the encoder stack, permute back, project with
`fc_out`.  `mask` is the ambient dropout randomness consumed by the library
encoder. -/
def SimpleTransformerModel.forward (m : SimpleTransformerModel)
    (mask : List Bool) (src : List (List Int)) : Option T3 :=
  (embedLookup m.embedding src).bind fun embedded =>
    (m.pos_encoding.forward embedded).map fun withPos =>
      linear3 m.fc_w m.fc_b (permute102 (m.transformer_encoder mask (permute102 withPos)))

/-- The inner batch loop of `train_model`: the per-batch work (forward pass,
loss, backward pass, optimizer step) is abstracted as `stepFn`, mapping the
training state and one batch to the updated state and the value
`loss.item()`; the fold accumulates `total_loss` starting from 0. -/
def runEpoch {σ β : Type} (stepFn : σ → β → σ × ℚ) (dataloader : List β) (s : σ) :
    σ × ℚ :=
  dataloader.foldl (fun acc batch =>
    let r := stepFn acc.1 batch
    (r.1, acc.2 + r.2)) (s, 0)

/-- The training state at the start of epoch `e`. -/
def epochState {σ β : Type} (stepFn : σ → β → σ × ℚ) (dataloader : List β) (s0 : σ) :
    Nat → σ
  | 0 => s0
  | e + 1 => (runEpoch stepFn dataloader (epochState stepFn dataloader s0 e)).1

/-- `train_model(model, dataloader, epochs, learning_rate)`: `for epoch in
range(epochs)`, run the batch loop, append `total_loss / len(dataloader)` to
`loss_history`, and return `loss_history`. -/
def train_model {σ β : Type} (stepFn : σ → β → σ × ℚ) (s0 : σ) (dataloader : List β)
    (epochs : Nat) : List ℚ :=
  ((List.range epochs).foldl (fun acc _ =>
    let r := runEpoch stepFn dataloader acc.2
    (acc.1 ++ [r.2 / (dataloader.length : ℚ)], r.1)) ([], s0)).1

/-- The module-level global `vocab_size = 50` assigned in the notebook and
read by `train_model` when it reshapes the logits. -/
def vocab_size : Nat := 50

/-- Regroup a flat list into consecutive rows of width `n`. -/
def chunks {α : Type} (n : Nat) (l : List α) : List (List α) :=
  if h : n = 0 ∨ l.length = 0 then [] else l.take n :: chunks n (l.drop n)
termination_by l.length
decreasing_by
  simp only [not_or] at h
  simp only [List.length_drop]
  omega

/-- `t.view(-1, n)` on a 3-d tensor: flatten and regroup into rows of width
`n`; PyTorch raises unless the element count is divisible by `n`. -/
def view_flat (n : Nat) (t : T3) : Option Mat :=
  if 0 < n ∧ t.flatten.flatten.length % n = 0 then some (chunks n t.flatten.flatten)
  else none

/-- The line `output = output.view(-1, vocab_size)` of `train_model`: the
width is the module-level global `vocab_size`, not a dimension read off
`output`. -/
def train_reshape (t : T3) : Option Mat := view_flat vocab_size t

/-! ### List helpers -/

theorem getD_lt {α : Type} (l : List α) (d : α) (i : Nat) (h : i < l.length) :
    l.getD i d = l[i] := by
  rw [List.getD_eq_getElem?_getD, List.getElem?_eq_getElem h]; rfl

theorem getD_mem {α : Type} (l : List α) (d : α) (i : Nat) (h : i < l.length) :
    l.getD i d ∈ l := by
  rw [getD_lt l d i h]; exact List.getElem_mem h

theorem getD_take_lt {α : Type} (l : List α) (d : α) (n i : Nat) (h : i < n) :
    (l.take n).getD i d = l.getD i d := by
  by_cases hl : i < l.length
  · have h1 : i < (l.take n).length := by
      rw [List.length_take]; exact lt_inf_iff.mpr ⟨h, hl⟩
    rw [getD_lt _ d i h1, getD_lt l d i hl, List.getElem_take]
  · have h2 : (l.take n).length ≤ i := by
      rw [List.length_take]; exact le_trans inf_le_right (by omega)
    rw [List.getD_eq_default _ d h2, List.getD_eq_default _ d (by omega)]

theorem getD_drop {α : Type} (l : List α) (d : α) (n i : Nat) :
    (l.drop n).getD i d = l.getD (n + i) d := by
  by_cases h : n + i < l.length
  · have h1 : i < (l.drop n).length := by rw [List.length_drop]; omega
    rw [getD_lt _ d i h1, getD_lt l d _ h, List.getElem_drop]
  · rw [List.getD_eq_default _ d (by rw [List.length_drop]; omega),
      List.getD_eq_default _ d (by omega)]

theorem eq_singleton_of_length_one {α : Type} {l : List α} (d : α) (h : l.length = 1) :
    l = [l.getD 0 d] := by
  match l with
  | [] => simp at h
  | [a] => simp
  | a :: b :: t => simp at h

theorem getD_map_range {β : Type} (n : Nat) (g : Nat → β) (d : β) (i : Nat) (h : i < n) :
    ((List.range n).map g).getD i d = g i := by
  rw [getD_lt _ d i (by simpa using h), List.getElem_map, List.getElem_range]

/-! ### Shape and broadcast lemmas -/

theorem dim1_of_isT3 {a b c : Nat} {t : T3} (h : isT3 a b c t) (ha : 0 < a) :
    dim1 t = b := by
  unfold dim1
  have hm : t.getD 0 [] ∈ t := getD_mem t [] 0 (by rw [h.1]; exact ha)
  exact (h.2 _ hm).1

theorem dim2_of_isT3 {a b c : Nat} {t : T3} (h : isT3 a b c t) (ha : 0 < a)
    (hb : 0 < b) : dim2 t = c := by
  unfold dim2
  have hm : t.getD 0 [] ∈ t := getD_mem t [] 0 (by rw [h.1]; exact ha)
  have hmat := h.2 _ hm
  have hr : (t.getD 0 []).getD 0 [] ∈ t.getD 0 [] :=
    getD_mem _ [] 0 (by rw [hmat.1]; exact hb)
  exact hmat.2 _ hr

theorem t3get_ofFn {a b c : Nat} {f : Nat → Nat → Nat → ℚ} {i j k : Nat}
    (hi : i < a) (hj : j < b) (hk : k < c) :
    t3get (t3ofFn a b c f) i j k = f i j k := by
  unfold t3get t3ofFn
  rw [getD_map_range a _ [] i hi, getD_map_range b _ [] j hj,
    getD_map_range c _ 0 k hk]

theorem isT3_ofFn (a b c : Nat) (f : Nat → Nat → Nat → ℚ) :
    isT3 a b c (t3ofFn a b c f) := by
  refine ⟨by simp [t3ofFn], ?_⟩
  intro m hm
  simp only [t3ofFn, List.mem_map, List.mem_range] at hm
  obtain ⟨i, hi, rfl⟩ := hm
  refine ⟨by simp, ?_⟩
  intro row hrow
  simp only [List.mem_map, List.mem_range] at hrow
  obtain ⟨j, hj, rfl⟩ := hrow
  simp

theorem t3ofFn_congr {a b c : Nat} {f g : Nat → Nat → Nat → ℚ}
    (h : ∀ i < a, ∀ j < b, ∀ k < c, f i j k = g i j k) :
    t3ofFn a b c f = t3ofFn a b c g := by
  unfold t3ofFn
  refine List.map_congr_left ?_
  intro i hi
  refine List.map_congr_left ?_
  intro j hj
  refine List.map_congr_left ?_
  intro k hk
  exact h i (List.mem_range.mp hi) j (List.mem_range.mp hj) k (List.mem_range.mp hk)

theorem bdim_self (a : Nat) : bdim a a = some a := by simp [bdim]

theorem bdim_one_right (a : Nat) : bdim a 1 = some a := by
  unfold bdim
  by_cases h : a = 1 <;> simp [h]

theorem bidx_of_lt {d i : Nat} (h : i < d) : bidx d i = i := by
  unfold bidx
  by_cases hd : d = 1
  · subst hd; simp; omega
  · simp [hd]

/-- Core behaviour of `LearnablePositionalEncoding.forward` on a well-shaped
nonempty input whose length fits the table. -/
theorem pe_forward_spec (pe : LearnablePositionalEncoding) (x : T3)
    (B L d maxlen : Nat)
    (hp : isT3 1 maxlen d pe.pos_encoding) (hx : isT3 B L d x)
    (hB : 0 < B) (hL0 : 0 < L) (hL : L ≤ maxlen) :
    pe.forward x =
      some (t3ofFn B L d fun b i k =>
        t3get x b i k + mget (pe.pos_encoding.getD 0 []) i k) := by
  have hlenx : x.length = B := hx.1
  have hd1x : dim1 x = L := dim1_of_isT3 hx hB
  have hd2x : dim2 x = d := dim2_of_isT3 hx hB hL0
  set tbl := pe.pos_encoding.getD 0 [] with htbl_def
  have hmax0 : 0 < maxlen := lt_of_lt_of_le hL0 hL
  have htbl_mem : tbl ∈ pe.pos_encoding := getD_mem _ [] 0 (by rw [hp.1]; omega)
  have htbl : isMat maxlen d tbl := hp.2 _ htbl_mem
  have hpos_eq : pe.pos_encoding = [tbl] := eq_singleton_of_length_one [] hp.1
  have hslice : posSlice pe L = [tbl.take L] := by
    rw [posSlice, hpos_eq]; rfl
  have hslen : ([tbl.take L] : T3).length = 1 := rfl
  have hsd1 : dim1 [tbl.take L] = L := by
    unfold dim1
    rw [List.getD_cons_zero, List.length_take, htbl.1]
    exact inf_eq_left.mpr hL
  have hsd2 : dim2 [tbl.take L] = d := by
    unfold dim2
    rw [List.getD_cons_zero, getD_take_lt _ _ L 0 hL0]
    exact htbl.2 _ (getD_mem _ [] 0 (by rw [htbl.1]; exact hmax0))
  unfold LearnablePositionalEncoding.forward
  rw [hd1x, hslice]
  unfold add3
  rw [hlenx, hslen, hd1x, hsd1, hd2x, hsd2, bdim_one_right, bdim_self, bdim_self]
  simp only [Option.some.injEq]
  apply t3ofFn_congr
  intro i hi j hj k hk
  rw [bidx_of_lt hi, bidx_of_lt hj, bidx_of_lt hk]
  have hb1 : bidx 1 i = 0 := by unfold bidx; simp
  rw [hb1]
  have hsg : t3get [tbl.take L] 0 j k = mget tbl j k := by
    unfold t3get mget
    rw [List.getD_cons_zero, getD_take_lt _ _ L j hj]
  rw [hsg]

/-! ### Fallible map, shapes of the encoder pipeline -/

theorem optMap_eq_none_of_mem {α γ : Type} (f : α → Option γ) (l : List α) (a : α)
    (ha : a ∈ l) (h : f a = none) : optMap f l = none := by
  induction l with
  | nil => simp at ha
  | cons b t ih =>
    rcases List.mem_cons.mp ha with rfl | hat
    · unfold optMap
      rw [h]
    · unfold optMap
      rw [ih hat]
      rcases f b with _ | v <;> rfl

theorem optMap_spec {α γ : Type} (f : α → Option γ) (P : γ → Prop) (l : List α)
    (h : ∀ a ∈ l, ∃ v, f a = some v ∧ P v) :
    ∃ out, optMap f l = some out ∧ out.length = l.length ∧ ∀ v ∈ out, P v := by
  induction l with
  | nil => exact ⟨[], rfl, rfl, by simp⟩
  | cons a t ih =>
    obtain ⟨v, hv, hPv⟩ := h a (List.mem_cons_self a t)
    obtain ⟨out, hout, hlen, hP⟩ := ih fun b hb => h b (List.mem_cons_of_mem a hb)
    refine ⟨v :: out, ?_, by simp [hlen], ?_⟩
    · unfold optMap
      rw [hv, hout]
    · intro w hw
      rcases List.mem_cons.mp hw with rfl | hwt
      · exact hPv
      · exact hP w hwt

theorem embedLookup_spec (w : Mat) (src : List (List Int)) (vocab d B L : Nat)
    (hw : isMat vocab d w) (hlen : src.length = B)
    (hrows : ∀ row ∈ src, row.length = L ∧ ∀ tok ∈ row, 0 ≤ tok ∧ tok < (vocab : Int)) :
    ∃ t, embedLookup w src = some t ∧ isT3 B L d t := by
  unfold embedLookup
  have hrow : ∀ row ∈ src, ∃ v, optMap (fun tok => if 0 ≤ tok ∧ tok < (w.length : Int)
      then some (w.getD tok.toNat []) else none) row = some v ∧ isMat L d v := by
    intro row hr
    obtain ⟨hrl, hrt⟩ := hrows row hr
    have htok : ∀ tok ∈ row, ∃ v, (if 0 ≤ tok ∧ tok < (w.length : Int)
        then some (w.getD tok.toNat []) else none) = some v ∧ v.length = d := by
      intro tok ht
      obtain ⟨h0, hlt⟩ := hrt tok ht
      have hcond : 0 ≤ tok ∧ tok < (w.length : Int) := ⟨h0, by rw [hw.1]; exact hlt⟩
      refine ⟨w.getD tok.toNat [], if_pos hcond, ?_⟩
      refine hw.2 _ (getD_mem _ [] _ ?_)
      rw [hw.1]
      omega
    obtain ⟨v, hv, hvlen, hvP⟩ := optMap_spec _ (fun r : Vec => r.length = d) row htok
    exact ⟨v, hv, hvlen.trans hrl, hvP⟩
  obtain ⟨out, hout, holen, hoP⟩ := optMap_spec _ (fun mm => isMat L d mm) src hrow
  exact ⟨out, hout, holen.trans hlen, hoP⟩

theorem isT3_permute102 {B L d : Nat} {t : T3} (h : isT3 B L d t) (hB : 0 < B) :
    isT3 L B d (permute102 t) := by
  have hd1 : dim1 t = L := dim1_of_isT3 h hB
  refine ⟨by simp [permute102, hd1], ?_⟩
  intro m hm
  simp only [permute102, hd1, List.mem_map, List.mem_range] at hm
  obtain ⟨j, hj, rfl⟩ := hm
  refine ⟨by simp [h.1], ?_⟩
  intro row hrow
  simp only [List.mem_map] at hrow
  obtain ⟨mm, hmm, rfl⟩ := hrow
  have hmat := h.2 mm hmm
  exact hmat.2 _ (getD_mem _ [] j (by rw [hmat.1]; exact hj))

theorem isT3_linear3 {vocab B L d d2 : Nat} {W : Mat} {bias : Vec} {t : T3}
    (hW : isMat vocab d W) (hb : bias.length = vocab) (ht : isT3 B L d2 t) :
    isT3 B L vocab (linear3 W bias t) := by
  refine ⟨by simp [linear3, ht.1], ?_⟩
  intro m hm
  simp only [linear3, List.mem_map] at hm
  obtain ⟨mm, hmm, rfl⟩ := hm
  have hmat := ht.2 mm hmm
  refine ⟨by simp [hmat.1], ?_⟩
  intro row hrow
  simp only [List.mem_map] at hrow
  obtain ⟨v, hv, rfl⟩ := hrow
  simp [linearV, List.length_zipWith, hW.1, hb]

/-! ### Training-loop and reshape lemmas -/

theorem train_model_foldl_spec {σ β : Type} (stepFn : σ → β → σ × ℚ) (s0 : σ)
    (dl : List β) (epochs : Nat) :
    (List.range epochs).foldl (fun acc _ =>
      let r := runEpoch stepFn dl acc.2
      (acc.1 ++ [r.2 / (dl.length : ℚ)], r.1)) ([], s0) =
    ((List.range epochs).map (fun e =>
      (runEpoch stepFn dl (epochState stepFn dl s0 e)).2 / (dl.length : ℚ)),
      epochState stepFn dl s0 epochs) := by
  induction epochs with
  | zero => rfl
  | succ n ih =>
    rw [List.range_succ, List.foldl_append, ih, List.map_append]
    rfl

theorem chunks_nil {α : Type} (n : Nat) : chunks n ([] : List α) = [] := by
  rw [chunks]
  simp

theorem chunks_cons_full {α : Type} (n : Nat) (hn : 0 < n) (l : List α)
    (hl : l.length ≠ 0) : chunks n l = l.take n :: chunks n (l.drop n) := by
  rw [chunks]
  rw [dif_neg (by push_neg; exact ⟨by omega, hl⟩)]

theorem flatten_length_uniform {α : Type} (l : List (List α)) (n : Nat)
    (h : ∀ r ∈ l, r.length = n) : l.flatten.length = l.length * n := by
  induction l with
  | nil => simp
  | cons r t ih =>
    rw [List.flatten_cons, List.length_append, List.length_cons,
      h r (List.mem_cons_self r t), ih fun x hx => h x (List.mem_cons_of_mem r hx)]
    ring

theorem chunks_flatten {α : Type} (n : Nat) (hn : 0 < n) (l : List (List α))
    (h : ∀ r ∈ l, r.length = n) : chunks n l.flatten = l := by
  induction l with
  | nil => simpa using chunks_nil n
  | cons r t ih =>
    have hr : r.length = n := h r (List.mem_cons_self r t)
    rw [List.flatten_cons, chunks_cons_full n hn _
      (by rw [List.length_append]; omega)]
    rw [List.take_left' hr, List.drop_left' hr,
      ih fun x hx => h x (List.mem_cons_of_mem r hx)]

theorem chunks_length_dvd {α : Type} (n : Nat) (hn : 0 < n) :
    ∀ (k : Nat) (l : List α), l.length = k → l.length % n = 0 →
      (chunks n l).length = l.length / n := by
  intro k
  induction k using Nat.strong_induction_on with
  | _ k ih =>
    intro l hk hmod
    by_cases hl : l.length = 0
    · have hnil : chunks n l = [] := by
        rw [chunks]
        rw [dif_pos (Or.inr hl)]
      rw [hnil, hl]
      simp
    · obtain ⟨q, hq⟩ := Nat.dvd_of_mod_eq_zero hmod
      have hq1 : 1 ≤ q := by
        rcases Nat.eq_zero_or_pos q with h0 | h1
        · rw [h0, Nat.mul_zero] at hq; omega
        · omega
      have hge : n ≤ l.length := by
        rw [hq]
        calc n = n * 1 := by omega
          _ ≤ n * q := Nat.mul_le_mul_left n hq1
      rw [chunks_cons_full n hn l hl, List.length_cons]
      have hdl : (l.drop n).length = n * (q - 1) := by
        rw [List.length_drop, hq, Nat.mul_sub, Nat.mul_one]
      have hmod2 : (l.drop n).length % n = 0 := by
        rw [hdl]
        exact Nat.mul_mod_right n _
      have hlt : (l.drop n).length < k := by
        rw [List.length_drop]
        omega
      rw [ih _ hlt _ rfl hmod2, hdl, Nat.mul_div_cancel_left _ hn, hq,
        Nat.mul_div_cancel_left _ hn]
      omega

/-! ### Claims -/

/-- C1: for every input tensor `x` of shape `(B, L, d_model)` with
`L ≤ max_len`, `LearnablePositionalEncoding.forward x` returns the tensor
whose entry at `(b, i, k)` equals `x[b][i][k] + table[i][k]` for every batch
index `b`, every position `i < L` and every feature index `k`; no other term
is added. -/
theorem c1_forward_is_elementwise_table_add
    (pe : LearnablePositionalEncoding) (x : T3) (B L d maxlen : Nat)
    (hp : isT3 1 maxlen d pe.pos_encoding) (hx : isT3 B L d x)
    (hB : 0 < B) (hL0 : 0 < L) (hL : L ≤ maxlen) :
    ∃ out, pe.forward x = some out ∧ isT3 B L d out ∧
      ∀ b < B, ∀ i < L, ∀ k < d,
        t3get out b i k = t3get x b i k + mget (pe.pos_encoding.getD 0 []) i k := by
  refine ⟨_, pe_forward_spec pe x B L d maxlen hp hx hB hL0 hL, isT3_ofFn _ _ _ _, ?_⟩
  intro b hb i hi k hk
  rw [t3get_ofFn hb hi hk]

/-- Witness for C1: a 3-row table `[[1], [2], [3]]` and the concrete batch
`[[[10], [20]], [[30], [40]]]` of shape `(2, 2, 1)`. -/
theorem c1_witness :
    isT3 1 3 1 (LearnablePositionalEncoding.mk [[[1], [2], [3]]]).pos_encoding ∧
    isT3 2 2 1 ([[[10], [20]], [[30], [40]]] : T3) ∧ 0 < 2 ∧ 2 ≤ 3 ∧
    (∃ out,
      (LearnablePositionalEncoding.mk [[[1], [2], [3]]]).forward
          [[[10], [20]], [[30], [40]]] = some out ∧
      isT3 2 2 1 out ∧
      ∀ b < 2, ∀ i < 2, ∀ k < 1,
        t3get out b i k = t3get [[[10], [20]], [[30], [40]]] b i k +
          mget ((LearnablePositionalEncoding.mk
            [[[1], [2], [3]]]).pos_encoding.getD 0 []) i k) :=
  ⟨by decide, by decide, by decide, by decide,
    c1_forward_is_elementwise_table_add _ _ 2 2 1 3 (by decide) (by decide)
      (by decide) (by decide) (by decide)⟩

/-- C2 counterexample: with `max_len = 1` and `d_model = 1`, an input of
sequence length `L = max_len + 1 = 2` does not fail: the sliced table has
dimension-1 size 1, PyTorch broadcasting silently reuses table row 0 at every
position, and `forward` returns a value — here `x` itself, since the table is
zero — instead of raising a bounds error. -/
theorem c2_counterexample :
    (LearnablePositionalEncoding.init 1 1).forward [[[5], [7]]] ≠ none ∧
    (LearnablePositionalEncoding.init 1 1).forward [[[5], [7]]] = some [[[5], [7]]] := by
  have hval : (LearnablePositionalEncoding.init 1 1).forward [[[5], [7]]]
      = some [[[5], [7]]] := by
    simp [LearnablePositionalEncoding.forward, LearnablePositionalEncoding.init, zeros3,
      posSlice, add3, dim1, dim2, bdim, bidx, t3ofFn, t3get, mget, List.range_succ]
  exact ⟨by rw [hval]; exact Option.some_ne_none _, hval⟩

/-- C2 amended: for every module whose table has `max_len ≥ 2` rows and every
nonempty well-shaped input of sequence length `L > max_len`, the
positional-encoding addition fails — `forward` returns no result — rather
than silently clipping or truncating.  (When `max_len ≤ 1` the sliced table
has a broadcastable dimension of size 1 and the addition silently succeeds,
as the counterexample shows.) -/
theorem c2_amended_overlong_input_fails
    (pe : LearnablePositionalEncoding) (x : T3) (B L d maxlen : Nat)
    (hp : isT3 1 maxlen d pe.pos_encoding) (hx : isT3 B L d x)
    (hB : 0 < B) (hmax : 2 ≤ maxlen) (hL : maxlen < L) :
    pe.forward x = none := by
  have hL0 : 0 < L := by omega
  have hlenx : x.length = B := hx.1
  have hd1x : dim1 x = L := dim1_of_isT3 hx hB
  have hd2x : dim2 x = d := dim2_of_isT3 hx hB hL0
  set tbl := pe.pos_encoding.getD 0 [] with htbl_def
  have hmax0 : 0 < maxlen := by omega
  have htbl_mem : tbl ∈ pe.pos_encoding := getD_mem _ [] 0 (by rw [hp.1]; omega)
  have htbl : isMat maxlen d tbl := hp.2 _ htbl_mem
  have hpos_eq : pe.pos_encoding = [tbl] := eq_singleton_of_length_one [] hp.1
  have hslice : posSlice pe L = [tbl.take L] := by
    rw [posSlice, hpos_eq]; rfl
  have hsd1 : dim1 [tbl.take L] = maxlen := by
    unfold dim1
    rw [List.getD_cons_zero, List.length_take, htbl.1]
    exact inf_eq_right.mpr (le_of_lt hL)
  unfold LearnablePositionalEncoding.forward
  rw [hd1x, hslice]
  unfold add3
  rw [hd1x, hsd1]
  have hbd : bdim L maxlen = none := by
    unfold bdim
    rw [if_neg (by omega), if_neg (by omega), if_neg (by omega)]
  rw [hbd]
  rcases bdim x.length ([tbl.take L] : T3).length with _ | a <;>
    rcases bdim (dim2 x) (dim2 [tbl.take L]) with _ | c <;> rfl

/-- Witness for the amended C2: a 2-row table of zeros and a `(1, 3, 1)`
input. -/
theorem c2_amended_witness :
    isT3 1 2 1 (LearnablePositionalEncoding.init 2 1).pos_encoding ∧
    isT3 1 3 1 ([[[5], [7], [9]]] : T3) ∧ 0 < 1 ∧ 2 ≤ 2 ∧ 2 < 3 ∧
    (LearnablePositionalEncoding.init 2 1).forward [[[5], [7], [9]]] = none :=
  ⟨by decide, by decide, by decide, by decide, by decide,
    c2_amended_overlong_input_fails _ _ 1 3 1 2 (by decide) (by decide)
      (by decide) (by decide) (by decide)⟩

/-- C3: immediately after `LearnablePositionalEncoding(max_len, d_model)` is
constructed, the stored parameter holds exactly one positional table, that
table has shape `(max_len, d_model)` — `max_len` rows of width `d_model` —
and every entry equals zero. -/
theorem c3_init_table_shape_and_zeros (M D : Nat) :
    (LearnablePositionalEncoding.init M D).pos_encoding.length = 1 ∧
    isMat M D ((LearnablePositionalEncoding.init M D).pos_encoding.getD 0 []) ∧
    ∀ row ∈ (LearnablePositionalEncoding.init M D).pos_encoding.getD 0 [],
      ∀ v ∈ row, v = (0 : ℚ) := by
  refine ⟨by simp [LearnablePositionalEncoding.init, zeros3], ⟨?_, ?_⟩, ?_⟩
  · simp [LearnablePositionalEncoding.init, zeros3]
  · intro row hrow
    simp only [LearnablePositionalEncoding.init, zeros3, List.replicate,
      List.getD_cons_zero, List.mem_replicate] at hrow
    simp [hrow.2]
  · intro row hrow v hv
    simp only [LearnablePositionalEncoding.init, zeros3, List.replicate,
      List.getD_cons_zero, List.mem_replicate] at hrow
    rw [hrow.2] at hv
    exact (List.mem_replicate.mp hv).2

/-- C8: `forward` has no side effects: in the state-passing form the module
state (hence the positional table and its slice of the first `L` rows) and
the input tensor come back unchanged, and a repeated call on the resulting
state returns the identical result. -/
theorem c8_forward_has_no_side_effects (pe : LearnablePositionalEncoding)
    (x : T3) (L : Nat) :
    (pe.forwardS x).2.1 = pe ∧ (pe.forwardS x).2.2 = x ∧
    posSlice (pe.forwardS x).2.1 L = posSlice pe L ∧
    ((pe.forwardS x).2.1).forwardS x = pe.forwardS x :=
  ⟨rfl, rfl, rfl, rfl⟩

/-- C4: for every valid index into a valid `DummyDataset`, `__getitem__`
returns a pair whose components both have length `seq_length - 1`, the target
at position `i` is the token immediately following the input at position `i`
in the stored sequence, and every token id of both components lies in
`[0, vocab_size)`. -/
theorem c4_getitem_is_shift_pair (ds : DummyDataset) (idx : Nat)
    (hv : ds.valid) (hidx : idx < ds.num_samples) :
    (ds.getitem idx).1.length = ds.seq_length - 1 ∧
    (ds.getitem idx).2.length = ds.seq_length - 1 ∧
    (∀ i < ds.seq_length - 1,
      (ds.getitem idx).1.getD i 0 = (ds.data.getD idx []).getD i 0 ∧
      (ds.getitem idx).2.getD i 0 = (ds.data.getD idx []).getD (i + 1) 0) ∧
    (∀ tok ∈ (ds.getitem idx).1, 0 ≤ tok ∧ tok < (ds.vocab_size : Int)) ∧
    (∀ tok ∈ (ds.getitem idx).2, 0 ≤ tok ∧ tok < (ds.vocab_size : Int)) := by
  have hlen : ds.data.length = ds.num_samples := hv.1
  have hrow_mem : ds.data.getD idx [] ∈ ds.data := getD_mem _ [] idx (by omega)
  have hrow := hv.2 _ hrow_mem
  refine ⟨?_, ?_, ?_, ?_, ?_⟩
  · show (ds.data.getD idx []).dropLast.length = _
    rw [List.length_dropLast, hrow.1]
  · show ((ds.data.getD idx []).drop 1).length = _
    rw [List.length_drop, hrow.1]
  · intro i hi
    constructor
    · show (ds.data.getD idx []).dropLast.getD i 0 = _
      rw [List.dropLast_eq_take, getD_take_lt _ _ _ i (by rw [hrow.1]; omega)]
    · show ((ds.data.getD idx []).drop 1).getD i 0 = _
      rw [getD_drop, Nat.add_comm]
  · intro tok ht
    exact hrow.2 tok (List.dropLast_subset _ ht)
  · intro tok ht
    exact hrow.2 tok (List.drop_subset _ _ ht)

/-- Witness for C4: a 2-sample dataset with `seq_length = 3`,
`vocab_size = 5`, sample 1. -/
theorem c4_witness :
    (DummyDataset.mk 2 3 5 [[0, 1, 2], [3, 4, 0]]).valid ∧ 1 < 2 ∧
    ((DummyDataset.mk 2 3 5 [[0, 1, 2], [3, 4, 0]]).getitem 1).1.length = 3 - 1 ∧
    ((DummyDataset.mk 2 3 5 [[0, 1, 2], [3, 4, 0]]).getitem 1).2.length = 3 - 1 ∧
    (∀ i < 3 - 1,
      ((DummyDataset.mk 2 3 5 [[0, 1, 2], [3, 4, 0]]).getitem 1).1.getD i 0 =
        (([[0, 1, 2], [3, 4, 0]] : List (List Int)).getD 1 []).getD i 0 ∧
      ((DummyDataset.mk 2 3 5 [[0, 1, 2], [3, 4, 0]]).getitem 1).2.getD i 0 =
        (([[0, 1, 2], [3, 4, 0]] : List (List Int)).getD 1 []).getD (i + 1) 0) ∧
    (∀ tok ∈ ((DummyDataset.mk 2 3 5 [[0, 1, 2], [3, 4, 0]]).getitem 1).1,
      0 ≤ tok ∧ tok < (5 : Int)) ∧
    (∀ tok ∈ ((DummyDataset.mk 2 3 5 [[0, 1, 2], [3, 4, 0]]).getitem 1).2,
      0 ≤ tok ∧ tok < (5 : Int)) :=
  ⟨by decide, by decide,
    c4_getitem_is_shift_pair (DummyDataset.mk 2 3 5 [[0, 1, 2], [3, 4, 0]]) 1
      (by decide) (by decide)⟩

/-- C5: for every epoch count, `train_model` runs exactly `epochs` epochs and
returns a loss history with exactly one entry per epoch, in epoch order: the
history is the list, indexed by `e ∈ range epochs`, of that epoch's
accumulated loss divided by the number of batches. -/
theorem c5_train_model_loss_history {σ β : Type} (stepFn : σ → β → σ × ℚ)
    (s0 : σ) (dl : List β) (epochs : Nat) :
    train_model stepFn s0 dl epochs =
      (List.range epochs).map (fun e =>
        (runEpoch stepFn dl (epochState stepFn dl s0 e)).2 / (dl.length : ℚ)) ∧
    (train_model stepFn s0 dl epochs).length = epochs := by
  have h := train_model_foldl_spec stepFn s0 dl epochs
  constructor
  · unfold train_model
    rw [h]
  · unfold train_model
    rw [h]
    simp

/-- C6: for every well-formed model, every batch of valid token-id sequences
of shape `(B, L)` with `L ≤ max_len` and all ids in `[0, vocab_size)`, and
every shape-preserving encoder stack, `SimpleTransformerModel.forward`
returns a logits tensor of shape `(B, L, vocab_size)`.  The witness
instantiates `B = 32`, `L = 9`, `vocab_size = 50`, `d_model = 32`. -/
theorem c6_forward_logits_shape (m : SimpleTransformerModel) (mask : List Bool)
    (src : List (List Int)) (B L vocab d maxlen : Nat)
    (hwf : m.wf vocab d maxlen)
    (henc : ∀ t, isT3 L B d t → isT3 L B d (m.transformer_encoder mask t))
    (hsrcB : src.length = B)
    (hsrc : ∀ row ∈ src, row.length = L ∧ ∀ tok ∈ row, 0 ≤ tok ∧ tok < (vocab : Int))
    (hB : 0 < B) (hL0 : 0 < L) (hL : L ≤ maxlen) :
    ∃ out, m.forward mask src = some out ∧ isT3 B L vocab out := by
  obtain ⟨he, hp, hWw, hbb⟩ := hwf
  obtain ⟨emb, hemb, hembT⟩ := embedLookup_spec m.embedding src vocab d B L he hsrcB hsrc
  have hpe := pe_forward_spec m.pos_encoding emb B L d maxlen hp hembT hB hL0 hL
  unfold SimpleTransformerModel.forward
  rw [hemb]
  simp only [Option.some_bind]
  rw [hpe]
  simp only [Option.map_some']
  refine ⟨_, rfl, ?_⟩
  have h1 := isT3_ofFn B L d fun b i k =>
    t3get emb b i k + mget (m.pos_encoding.pos_encoding.getD 0 []) i k
  have h2 := isT3_permute102 h1 hB
  have h3 := henc _ h2
  have h4 := isT3_permute102 h3 hL0
  exact isT3_linear3 hWw hbb h4

/-- Witness for C6: a zero-weight model with `vocab_size = 50`,
`d_model = 32`, `max_len = 60`, the identity encoder stack, and a `(32, 9)`
batch of zeros. -/
theorem c6_witness :
    (SimpleTransformerModel.mk (List.replicate 50 (List.replicate 32 (0 : ℚ)))
      (LearnablePositionalEncoding.init 60 32) (fun _ t => t)
      (List.replicate 50 (List.replicate 32 (0 : ℚ)))
      (List.replicate 50 (0 : ℚ))).wf 50 32 60 ∧
    (List.replicate 32 (List.replicate 9 (0 : Int))).length = 32 ∧
    (∀ row ∈ List.replicate 32 (List.replicate 9 (0 : Int)), row.length = 9 ∧
      ∀ tok ∈ row, 0 ≤ tok ∧ tok < ((50 : Nat) : Int)) ∧ (9 : Nat) ≤ 60 ∧
    (∃ out, (SimpleTransformerModel.mk (List.replicate 50 (List.replicate 32 (0 : ℚ)))
      (LearnablePositionalEncoding.init 60 32) (fun _ t => t)
      (List.replicate 50 (List.replicate 32 (0 : ℚ)))
      (List.replicate 50 (0 : ℚ))).forward [true]
        (List.replicate 32 (List.replicate 9 (0 : Int))) = some out ∧
      isT3 32 9 50 out) :=
  ⟨by decide, by decide, by decide, by decide,
    c6_forward_logits_shape _ [true] _ 32 9 50 32 60 (by decide) (fun _ h => h)
      (by decide) (by decide) (by decide) (by decide) (by decide)⟩

/-- C7: once the dropout randomness is ignored by the encoder stack (dropout
disabled), two runs of `SimpleTransformerModel.forward` on the same input
with the same parameters produce identical logits: the forward pass is a
deterministic function of input and parameters.  All other stages — embedding
lookup, positional addition, permutations, output projection — consume no
randomness at all. -/
theorem c7_forward_deterministic_without_dropout (m : SimpleTransformerModel)
    (src : List (List Int)) (mk1 mk2 : List Bool)
    (hdrop : ∀ mka mkb t, m.transformer_encoder mka t = m.transformer_encoder mkb t) :
    m.forward mk1 src = m.forward mk2 src := by
  unfold SimpleTransformerModel.forward
  rcases hE : embedLookup m.embedding src with _ | embedded
  · rfl
  · simp only [Option.some_bind]
    rcases hP : m.pos_encoding.forward embedded with _ | withPos
    · rfl
    · simp only [Option.map_some']
      rw [hdrop mk1 mk2]

/-- Witness for C7: a concrete model with a mask-independent encoder, run
with two different dropout masks. -/
theorem c7_witness :
    (∀ mka mkb t, (SimpleTransformerModel.mk [[0]] (LearnablePositionalEncoding.init 1 1)
      (fun _ t => t) [[0]] [0]).transformer_encoder mka t =
      (SimpleTransformerModel.mk [[0]] (LearnablePositionalEncoding.init 1 1)
        (fun _ t => t) [[0]] [0]).transformer_encoder mkb t) ∧
    (SimpleTransformerModel.mk [[0]] (LearnablePositionalEncoding.init 1 1)
      (fun _ t => t) [[0]] [0]).forward [true] [[0]] =
    (SimpleTransformerModel.mk [[0]] (LearnablePositionalEncoding.init 1 1)
      (fun _ t => t) [[0]] [0]).forward [false] [[0]] :=
  ⟨fun _ _ _ => rfl,
    c7_forward_deterministic_without_dropout _ [[0]] [true] [false] fun _ _ _ => rfl⟩

/-- C9: for every input batch containing a token id outside `[0, vocab_size)`
— where `vocab_size` is the embedding row count fixed by `__init__` —
`SimpleTransformerModel.forward` fails at the embedding lookup: the error
propagates unrecovered and no logits are returned. -/
theorem c9_out_of_vocab_id_fails (m : SimpleTransformerModel) (mask : List Bool)
    (src : List (List Int)) (vocab : Nat) (row : List Int) (tok : Int)
    (hlen : m.embedding.length = vocab)
    (hrow : row ∈ src) (htok : tok ∈ row)
    (hbad : tok < 0 ∨ (vocab : Int) ≤ tok) :
    m.forward mask src = none := by
  have hcond : ¬(0 ≤ tok ∧ tok < (m.embedding.length : Int)) := by
    rw [hlen]
    rcases hbad with h1 | h1 <;> omega
  have hrowm : optMap (fun tok => if 0 ≤ tok ∧ tok < (m.embedding.length : Int)
      then some (m.embedding.getD tok.toNat []) else none) row = none :=
    optMap_eq_none_of_mem _ _ tok htok (if_neg hcond)
  have hsrcm : embedLookup m.embedding src = none :=
    optMap_eq_none_of_mem _ _ row hrow hrowm
  unfold SimpleTransformerModel.forward
  rw [hsrcm]
  rfl

/-- Witness for C9: a model with a 2-row embedding and the out-of-vocabulary
id 5. -/
theorem c9_witness :
    (SimpleTransformerModel.mk [[0], [0]] (LearnablePositionalEncoding.init 1 1)
      (fun _ t => t) [[0]] [0]).embedding.length = 2 ∧
    ([5] : List Int) ∈ ([[5]] : List (List Int)) ∧ (5 : Int) ∈ ([5] : List Int) ∧
    ((5 : Int) < 0 ∨ ((2 : Nat) : Int) ≤ 5) ∧
    (SimpleTransformerModel.mk [[0], [0]] (LearnablePositionalEncoding.init 1 1)
      (fun _ t => t) [[0]] [0]).forward [true] [[5]] = none :=
  ⟨by decide, by decide, by decide, by decide,
    c9_out_of_vocab_id_fails _ [true] [[5]] 2 [5] 5 (by decide) (by decide)
      (by decide) (by decide)⟩

/-- C10: `train_model` reshapes the logits with the module-level global
`vocab_size = 50`, not a value derived from its model argument: on a logits
tensor of shape `(B, L, V)` the reshape (i) is literally `view(-1, 50)`,
(ii) groups correctly — one row per position — exactly when `V = 50`,
(iii) fails when the element count is not divisible by 50, and (iv) when
`V ≠ 50` but the count is divisible, silently produces a row count different
from the number of positions, grouping logits incorrectly. -/
theorem c10_train_reshape_uses_global_vocab_size (t : T3) (B L V : Nat)
    (ht : isT3 B L V t) :
    train_reshape t = view_flat 50 t ∧
    (V = 50 → train_reshape t = some t.flatten) ∧
    (B * L * V % 50 ≠ 0 → train_reshape t = none) ∧
    (V ≠ 50 → 0 < B * L → B * L * V % 50 = 0 →
      ∃ M, train_reshape t = some M ∧ M.length ≠ B * L) := by
  have hfl1 : t.flatten.length = B * L := by
    have hh := flatten_length_uniform t L fun m hm => (ht.2 m hm).1
    rw [hh, ht.1]
  have hrowsV : ∀ r ∈ t.flatten, r.length = V := by
    intro r hr
    obtain ⟨m, hm, hrm⟩ := List.mem_flatten.mp hr
    exact (ht.2 m hm).2 r hrm
  have hfl2 : t.flatten.flatten.length = B * L * V := by
    rw [flatten_length_uniform t.flatten V hrowsV, hfl1]
  refine ⟨rfl, ?_, ?_, ?_⟩
  · intro hV
    subst hV
    unfold train_reshape vocab_size view_flat
    rw [if_pos ⟨by omega, by rw [hfl2]; exact Nat.mul_mod_left _ _⟩]
    rw [chunks_flatten 50 (by omega) t.flatten hrowsV]
  · intro hmod
    unfold train_reshape vocab_size view_flat
    rw [if_neg]
    intro hc
    rw [hfl2] at hc
    exact hmod hc.2
  · intro hV hBL hmod
    unfold train_reshape vocab_size view_flat
    rw [if_pos ⟨by omega, by rw [hfl2]; exact hmod⟩]
    refine ⟨_, rfl, ?_⟩
    rw [chunks_length_dvd 50 (by omega) _ _ rfl (by rw [hfl2]; exact hmod), hfl2]
    intro heq
    have h2 := Nat.div_mul_cancel (Nat.dvd_of_mod_eq_zero hmod)
    rw [heq] at h2
    have h3 : B * L * V = B * L * 50 := by rw [← h2]
    exact hV (Nat.eq_of_mul_eq_mul_left hBL h3)

/-- Witness for C10: a `(1, 2, 25)` logits tensor — 50 elements, so the
reshape silently succeeds with 1 row instead of the 2 positions. -/
theorem c10_witness :
    isT3 1 2 25 (List.replicate 1 (List.replicate 2 (List.replicate 25 (0 : ℚ)))) ∧
    (25 ≠ 50 ∧ 0 < 1 * 2 ∧ 1 * 2 * 25 % 50 = 0) ∧
    (∃ M, train_reshape (List.replicate 1 (List.replicate 2 (List.replicate 25 (0 : ℚ))))
      = some M ∧ M.length ≠ 1 * 2) :=
  ⟨by decide, ⟨by decide, by decide, by decide⟩,
    (c10_train_reshape_uses_global_vocab_size _ 1 2 25 (by decide)).2.2.2
      (by decide) (by decide) (by decide)⟩

end LPE
